import Mathlib

/-!
Shallow embedding of the asset report generator (`asset.py`).

The numeric cells of the spreadsheet are Python floats; they are modelled by
rationals (`Rat`).  Python's `float(str)` can also produce the non-finite
values `nan` and `±inf` from the literals `"nan"`, `"inf"`, `"infinity"`
(any case, optionally signed); those outcomes are represented explicitly by
the `PyFloat` constructors `nan` and `inf`, so that no finite rational is
ever used to stand in for a non-finite double.
-/

set_option maxRecDepth 100000

/-- Whitespace characters stripped by Python's `str.strip()` (ASCII range). -/
def pyIsSpace (c : Char) : Bool :=
  c = ' ' || c = '\t' || c = '\n' || c = '\r' || c = Char.ofNat 11 || c = Char.ofNat 12

/-- Model of Python `str.strip()`: remove leading and trailing whitespace. -/
def pyStrip (s : String) : String :=
  String.mk (((s.data.dropWhile pyIsSpace).reverse.dropWhile pyIsSpace).reverse)

/-- Numeric value of a decimal digit character. -/
def digitVal (c : Char) : Nat := c.toNat - '0'.toNat

/-- Consume further digits of a CPython `digitpart` (`digit (["_"] digit)*`):
single underscores are allowed between digits.  Returns the accumulated
value, the number of digits consumed so far, and the unconsumed input. -/
def digitsLoop (acc k : Nat) : List Char → Nat × Nat × List Char
  | [] => (acc, k, [])
  | '_' :: d :: rest =>
      if d.isDigit then digitsLoop (acc * 10 + digitVal d) (k + 1) rest
      else (acc, k, '_' :: d :: rest)
  | c :: rest =>
      if c.isDigit then digitsLoop (acc * 10 + digitVal c) (k + 1) rest
      else (acc, k, c :: rest)

/-- Parse a CPython `digitpart`; fails unless the input starts with a digit. -/
def parseDigitPart (l : List Char) : Option (Nat × Nat × List Char) :=
  match l with
  | c :: rest => if c.isDigit then some (digitsLoop (digitVal c) 1 rest) else none
  | [] => none

/-- Parse an optional sign, returning whether it was `'-'` and the rest. -/
def parseSign : List Char → Bool × List Char
  | '+' :: r => (false, r)
  | '-' :: r => (true, r)
  | l => (false, l)

/-- Multiply a rational by an integer power of ten. -/
def mulPow10 (q : Rat) (e : Int) : Rat :=
  if 0 ≤ e then q * (10 : Rat) ^ e.toNat else q / (10 : Rat) ^ (-e).toNat

/-- Parse the optional exponent suffix `("e"|"E") ["+"|"-"] digitpart` of a
CPython float literal; the whole remaining input must be consumed. -/
def parseExp (q : Rat) : List Char → Option Rat
  | [] => some q
  | c :: r =>
      if c = 'e' ∨ c = 'E' then
        let s := parseSign r
        match parseDigitPart s.2 with
        | some (e, _, r3) =>
            if r3 = [] then some (mulPow10 q (if s.1 then -(e : Int) else (e : Int)))
            else none
        | none => none
      else none

/-- Parse an unsigned CPython float literal
(`digitpart ["." [digitpart]] | "." digitpart`, then an optional exponent). -/
def parseUnsigned (l : List Char) : Option Rat :=
  match parseDigitPart l with
  | some (ip, _, r1) =>
      match r1 with
      | '.' :: r2 =>
          match parseDigitPart r2 with
          | some (fp, fd, r3) => parseExp ((ip : Rat) + (fp : Rat) / (10 : Rat) ^ fd) r3
          | none => parseExp (ip : Rat) r2
      | _ => parseExp (ip : Rat) r1
  | none =>
      match l with
      | '.' :: r2 =>
          match parseDigitPart r2 with
          | some (fp, fd, r3) => parseExp ((fp : Rat) / (10 : Rat) ^ fd) r3
          | none => none
      | _ => none

/-- Result of Python's `float()`: a finite double (modelled as a rational),
`nan`, or a signed infinity. -/
inductive PyFloat where
  | finite (q : Rat)
  | nan
  | inf (neg : Bool)
deriving DecidableEq

/-- Model of Python `float(s)` on strings: strip whitespace, optional sign,
then either one of the non-finite literals (`inf`, `infinity`, `nan`, any
case) or a decimal float literal.  `none` models a raised `ValueError`. -/
def pyFloat? (s : String) : Option PyFloat :=
  let l := ((s.data.dropWhile pyIsSpace).reverse.dropWhile pyIsSpace).reverse
  let p := parseSign l
  let low := p.2.map Char.toLower
  if low = "inf".data ∨ low = "infinity".data then some (.inf p.1)
  else if low = "nan".data then some .nan
  else
    match parseUnsigned p.2 with
    | some q => some (.finite (if p.1 then -q else q))
    | none => none

/-- The string cleanup done by `clean_number` before the numeric conversion:
`x.replace("₹", "").replace(",", "").strip()`.  `str.replace` with an empty
replacement deletes every occurrence of the single-character pattern, hence
the two filters. -/
def stripCell (x : String) : String :=
  pyStrip (String.mk ((x.data.filter (fun c => c != '₹')).filter (fun c => c != ',')))

/-- Embedding of `clean_number` (asset.py lines 33-38): strip the currency
symbol, commas and whitespace; return `0.0` for `""`, `"nan"`, `"None"`;
otherwise `float(x)`, with any parse failure caught and turned into `0.0`. -/
def clean_number (x : String) : PyFloat :=
  if stripCell x ∈ (["", "nan", "None"] : List String) then .finite 0
  else (pyFloat? (stripCell x)).getD (.finite 0)

/-- Round-half-even (banker's rounding) to the nearest integer, the rounding
used by Python's `round` and by numpy/pandas `.round`. -/
def rhe (x : Rat) : Int :=
  if x - (⌊x⌋ : Rat) < 1 / 2 then ⌊x⌋
  else if 1 / 2 < x - (⌊x⌋ : Rat) then ⌊x⌋ + 1
  else if ⌊x⌋ % 2 = 0 then ⌊x⌋ else ⌊x⌋ + 1

/-- Rounding to two decimal places, modelling pandas `.round(2)`. -/
def round2 (x : Rat) : Rat := ((rhe (x * 100) : Int) : Rat) / 100

/-- One row of the per-client allocation table
(`Asset Type`, `Value`, `% Allocation`). -/
structure AllocRow where
  assetType : String
  value : Rat
  pctAllocation : Rat
deriving DecidableEq

/-- Embedding of the allocation computation (asset.py lines 189-192 and
212-215): `total = sum(values)`; each row's percentage is
`round(value / total * 100, 2)` when `total > 0` and `0` otherwise; one
synthetic row `("Total", total, 100)` is appended. -/
def allocationTable (assets : List (String × Rat)) : List AllocRow :=
  let total := (assets.map Prod.snd).sum
  (assets.map (fun a =>
    { assetType := a.1, value := a.2,
      pctAllocation := if 0 < total then round2 (a.2 / total * 100) else 0 }))
  ++ [{ assetType := "Total", value := total, pctAllocation := 100 }]

/-- Model of the dataframe-wide placeholder replacement (asset.py line 174):
`df.replace(["NA","N.A","N/A","na","n.a","n/a","","Pending","pending"], "0")`
replaces exactly-matching cell values. -/
def preprocessCell (s : String) : String :=
  if s ∈ (["NA", "N.A", "N/A", "na", "n.a", "n/a", "", "Pending", "pending"] : List String)
  then "0" else s

/-- A cell as seen by the allocation pipeline: dataframe replacement followed
by `clean_number`. -/
def normalizeCell (s : String) : PyFloat := clean_number (preprocessCell s)

/-- Extract one client's normalized asset values.  The result is `some` only
when every cell normalizes to a finite double; non-finite doubles (`nan`,
`inf`) have no rational counterpart in this model. -/
def clientValues? (cells : List (String × String)) : Option (List (String × Rat)) :=
  cells.mapM (fun c =>
    match normalizeCell c.2 with
    | .finite q => some (c.1, q)
    | _ => none)

/-- The allocation rows the pipeline derives from one client's raw cells. -/
def pipelineRows? (cells : List (String × String)) : Option (List AllocRow) :=
  (clientValues? cells).map allocationTable

/-- Decimal digit character of a value below ten. -/
def digitChar (n : Nat) : Char := Char.ofNat (48 + n)

/-- Decimal digit string of a natural number (most significant digit
first), with a structural fuel argument; the fuel only has to exceed the
number of decimal digits, which `decDigits` arranges. -/
def decDigitsAux : Nat → Nat → List Char
  | 0, _ => []
  | fuel + 1, n =>
      if n < 10 then [digitChar n]
      else decDigitsAux fuel (n / 10) ++ [digitChar (n % 10)]

/-- Decimal digit string of a natural number (most significant digit first),
modelling Python's `str` on a non-negative `int`. -/
def decDigits (n : Nat) : List Char := decDigitsAux (n + 1) n

/-- Model of Python `str` on an `int`. -/
def pyIntStr (i : Int) : String :=
  if i < 0 then "-" ++ String.mk (decDigits (-i).toNat)
  else String.mk (decDigits i.toNat)

/-- Model of Python `','.join` on a list of strings. -/
def commaJoin : List String → String
  | [] => ""
  | [s] => s
  | s :: t :: rest => s ++ "," ++ commaJoin (t :: rest)

/-- The grouping loop of `format_indian_currency` with a structural fuel
argument: repeatedly peel the last two characters off `rem` while more than
two remain, collecting the peeled groups in order (least significant group
first).  Every iteration shortens `rem` by two, so any fuel of at least
`rem.length` lets the loop run to its natural end. -/
def groupsLoopAux : Nat → List Char → List (List Char) → List (List Char) × List Char
  | 0, rem, groups => (groups, rem)
  | fuel + 1, rem, groups =>
      if 2 < rem.length then
        groupsLoopAux fuel (rem.take (rem.length - 2)) (groups ++ [rem.drop (rem.length - 2)])
      else (groups, rem)

/-- The grouping loop of `format_indian_currency` (asset.py lines 57-62). -/
def groupsLoop (rem : List Char) (groups : List (List Char)) :
    List (List Char) × List Char :=
  groupsLoopAux rem.length rem groups

/-- Embedding of `format_indian_currency` (asset.py lines 47-65): amounts
equal to zero print as `"₹ 0"`; otherwise the rounded amount's digit string
is grouped Indian-style (last three digits, then groups of two). -/
def format_indian_currency (amount : Rat) : String :=
  if amount = 0 then "₹ 0"
  else
    let amount_str := pyIntStr (rhe amount)
    if amount_str.length ≤ 3 then "₹ " ++ amount_str
    else
      let chars := amount_str.data
      let last_three := chars.drop (chars.length - 3)
      let remaining := chars.take (chars.length - 3)
      let p := groupsLoop remaining []
      let groups := if p.2 ≠ [] then p.1 ++ [p.2] else p.1
      "₹ " ++ commaJoin (groups.reverse.map String.mk) ++ "," ++ String.mk last_three

/-- Groups of at most two characters taken from the right of a list, most
significant group first, with a structural fuel argument; any fuel of at
least `l.length` is enough. -/
def chunk2Aux : Nat → List Char → List (List Char)
  | 0, _ => []
  | fuel + 1, l =>
      if l = [] then []
      else if l.length ≤ 2 then [l]
      else chunk2Aux fuel (l.take (l.length - 2)) ++ [l.drop (l.length - 2)]

/-- Groups of at most two characters taken from the right of a list, most
significant group first; the spec-side description of the leading-digit
grouping of the Indian currency format. -/
def chunk2FromRight (l : List Char) : List (List Char) := chunk2Aux l.length l

/-- Spec-side reading of the claimed grouping rule: the last three digits of
the string form one group, the remaining leading digits are grouped in
chunks of two from the right, and all groups are comma-joined. -/
def indianGroupingSpec (s : String) : String :=
  let c := s.data
  commaJoin ((chunk2FromRight (c.take (c.length - 3)) ++ [c.drop (c.length - 3)]).map String.mk)

/-- Spec-side reading of the claimed currency formatter: round to the
nearest integer; zero prints as `"₹ 0"`, any other amount as the symbol
followed by the Indian-grouped digit string. -/
def formatCurrencySpec (amount : Rat) : String :=
  if rhe amount = 0 then "₹ 0"
  else "₹ " ++ indianGroupingSpec (pyIntStr (rhe amount))

/-- The fixed pie-chart palette (asset.py line 156). -/
def pieColors : List String :=
  ["#d65a8d", "#d4b483", "#274472", "#c0c0c0", "#3d6ba0",
   "#f5e6d3", "#5f84ce", "#a8dadc", "#f2a7bb"]

/-- Embedding of the chart-input filter (asset.py lines 153-154): drop the
rows whose asset type lowercases to `"total"`, then drop the rows whose
value is not strictly positive. -/
def plotRows (rows : List AllocRow) : List AllocRow :=
  (rows.filter (fun r => r.assetType.toLower != "total")).filter
    (fun r => decide (0 < r.value))

/-- Embedding of the palette truncation (asset.py line 157):
`colors[:max(1, len(plot_df))]`. -/
def plotColors (rows : List AllocRow) : List String :=
  pieColors.take (max 1 (plotRows rows).length)

/-- Outcome of the single-report preview block. -/
inductive PreviewOutcome (β : Type) where
  | download (fileName : String) (contents : β)
  | errorMessage (msg : String)
deriving DecidableEq

/-- Embedding of the single-report boundary (asset.py lines 196-200): the
PDF renderer (an external collaborator modelled by an `Except` value, its
`error` case standing for a raised exception) is wrapped in `try/except`;
success offers a download named `<client>_Report.pdf`, failure surfaces
`st.error("PDF generation failed: ...")` and offers nothing. -/
def previewReport {β : Type} (selectedClient : String) (render : Except String β) :
    PreviewOutcome β :=
  match render with
  | .ok b => .download (selectedClient ++ "_Report.pdf") b
  | .error e => .errorMessage ("PDF generation failed: " ++ e)

/-- Outcome of the batch-generation block. -/
inductive BatchOutcome (β : Type) where
  | archive (fileName : String) (entries : List (String × β))
  | warning (msg : String)
deriving DecidableEq

/-- Embedding of the batch orchestrator (asset.py lines 205-220): an empty
selection surfaces a validation warning; otherwise one ZIP named
`Client_Reports.zip` is offered, holding `<client>_Report.pdf` entries in
selection order.  `render` abstracts the per-client pipeline (record lookup,
allocation table, external PDF renderer) producing the entry bytes. -/
def generateZip {β : Type} (selectedClients : List String) (render : String → β) :
    BatchOutcome β :=
  if selectedClients.isEmpty then .warning "⚠️ Select at least one client."
  else .archive "Client_Reports.zip"
    (selectedClients.map (fun c => (c ++ "_Report.pdf", render c)))

/-- Embedding of the client-list construction (asset.py lines 179-180): drop
the rows whose first column strips to the empty string, then take the first
column.  A row is its first cell plus the remaining cells. -/
def buildClientList (rows : List (String × List String)) : List String :=
  (rows.filter (fun r => pyStrip r.1 != "")).map Prod.fst

/-- All strings obtained from a list of characters by independently keeping
or uppercasing each character. -/
def caseVariantsL : List Char → List (List Char)
  | [] => [[]]
  | c :: r =>
      ((if c.toUpper = c then [c] else [c, c.toUpper]).map
        (fun d => (caseVariantsL r).map (fun t => d :: t))).flatten

/-- All case variants of a string. -/
def caseVariants (s : String) : List String := (caseVariantsL s.data).map String.mk

/-- The placeholder tokens of the normalizer contract, in every case
variant. -/
def placeholderVariants : List String :=
  ((["", "na", "n.a", "n/a", "pending"] : List String).map caseVariants).flatten

/-! Helper lemmas. -/

theorem placeholder_clean : ∀ t ∈ placeholderVariants, clean_number t = .finite 0 := by
  decide

/-- C1: the Allocation Calculator returns the input rows in original column
order, each with percent `round(value / total * 100, 2)` when the total is
positive and `0` otherwise, followed by exactly one synthetic row
`("Total", total, 100)`, the percent being literally `100` even when the
total is `0`. -/
theorem allocation_calculator_postcondition (assets : List (String × Rat)) :
    allocationTable assets =
      (assets.map (fun a =>
        { assetType := a.1, value := a.2,
          pctAllocation :=
            if 0 < (assets.map Prod.snd).sum
            then round2 (a.2 / (assets.map Prod.snd).sum * 100) else 0 }))
      ++ [{ assetType := "Total", value := (assets.map Prod.snd).sum,
            pctAllocation := 100 }] ∧
    (allocationTable assets).length = assets.length + 1 ∧
    (allocationTable assets).getLast? =
      some { assetType := "Total", value := (assets.map Prod.snd).sum,
             pctAllocation := 100 } := by
  refine ⟨rfl, ?_, ?_⟩
  · simp [allocationTable]
  · simp [allocationTable]

unseal Rat.add Rat.mul Rat.inv Rat.sub in
/-- C4: the Value Normalizer is total; the placeholder tokens `""`, `"na"`,
`"n.a"`, `"n/a"`, `"pending"` yield `0.0` in every case variant,
`"₹1,234.50"` yields `1234.50`, and any input whose stripped form fails to
parse as a float yields `0.0`. -/
theorem clean_number_contract (s : String) :
    (s ∈ placeholderVariants → clean_number s = .finite 0) ∧
    clean_number "₹1,234.50" = .finite (2469 / 2) ∧
    ((pyFloat? (stripCell s)).isNone → clean_number s = .finite 0) := by
  refine ⟨fun hs => placeholder_clean s hs, by decide, fun hnone => ?_⟩
  rw [Option.isNone_iff_eq_none] at hnone
  unfold clean_number
  split
  · rfl
  · rw [hnone]; rfl

theorem clean_number_contract_witness :
    clean_number "NA" = .finite 0 ∧ clean_number "hello" = .finite 0 :=
  ⟨(clean_number_contract "NA").1 (by decide),
   (clean_number_contract "hello").2.2 (by decide)⟩

/-- C6: the rows handed to the pie chart are exactly the rows with strictly
positive value whose asset type is not case-insensitively `"Total"`, in
original order, and the 9-color palette is truncated to the number of
plotted slices, never to fewer than one color. -/
theorem chart_input_filter (rows : List AllocRow) :
    plotRows rows =
      rows.filter (fun r => decide (0 < r.value) && (r.assetType.toLower != "total")) ∧
    plotColors rows = pieColors.take (max 1 (plotRows rows).length) ∧
    (plotColors rows).length = max 1 (min (plotRows rows).length 9) ∧
    1 ≤ (plotColors rows).length := by
  refine ⟨List.filter_filter .., rfl, ?_, ?_⟩
  · simp only [plotColors, List.length_take]
    have h9 : pieColors.length = 9 := rfl
    rw [h9]
    omega
  · simp only [plotColors, List.length_take]
    have h9 : pieColors.length = 9 := rfl
    rw [h9]
    omega

/-- C7: a rendering failure is caught at the single-report boundary and
surfaced as a user-visible error message with no report offered; a
successful rendering is offered as `<client>_Report.pdf`. -/
theorem preview_error_boundary {β : Type} (client : String) (render : Except String β) :
    (∀ e, render = .error e →
      previewReport client render = .errorMessage ("PDF generation failed: " ++ e) ∧
      ∀ f b, previewReport client render ≠ .download f b) ∧
    (∀ b, render = .ok b →
      previewReport client render = .download (client ++ "_Report.pdf") b) := by
  constructor
  · rintro e rfl
    exact ⟨rfl, fun f b h => by simp [previewReport] at h⟩
  · rintro b rfl
    rfl

theorem preview_error_boundary_witness :
    previewReport "Acme" (Except.error "boom" : Except String Nat) =
      .errorMessage "PDF generation failed: boom" ∧
    previewReport "Acme" (Except.ok 7 : Except String Nat) = .download "Acme_Report.pdf" 7 :=
  ⟨((preview_error_boundary "Acme" (Except.error "boom")).1 "boom" rfl).1,
   (preview_error_boundary "Acme" (Except.ok 7)).2 7 rfl⟩

/-- C8: requesting batch generation with an empty selection surfaces a
validation warning and produces no archive; a non-empty selection produces
the single archive `Client_Reports.zip` holding, in selection order, one
entry `<client>_Report.pdf` per selected client. -/
theorem batch_orchestrator {β : Type} (selected : List String) (render : String → β) :
    (selected = [] →
      generateZip selected render = .warning "⚠️ Select at least one client." ∧
      ∀ f es, generateZip selected render ≠ .archive f es) ∧
    (selected ≠ [] →
      generateZip selected render =
        .archive "Client_Reports.zip"
          (selected.map (fun c => (c ++ "_Report.pdf", render c))) ∧
      ∀ f es, generateZip selected render = .archive f es →
        es.map Prod.fst = selected.map (fun c => c ++ "_Report.pdf")) := by
  constructor
  · rintro rfl
    exact ⟨rfl, fun f es h => by simp [generateZip] at h⟩
  · intro hne
    have hz : generateZip selected render =
        .archive "Client_Reports.zip"
          (selected.map (fun c => (c ++ "_Report.pdf", render c))) := by
      simp [generateZip, hne]
    refine ⟨hz, fun f es h => ?_⟩
    rw [hz] at h
    cases h
    simp

theorem batch_orchestrator_witness :
    generateZip ([] : List String) (fun _ => ()) = .warning "⚠️ Select at least one client." ∧
    generateZip ["Acme", "Zen"] (fun _ => ()) =
      .archive "Client_Reports.zip" [("Acme_Report.pdf", ()), ("Zen_Report.pdf", ())] :=
  ⟨((batch_orchestrator [] (fun _ => ())).1 rfl).1,
   ((batch_orchestrator ["Acme", "Zen"] (fun _ => ())).2 (by simp)).1⟩

/-- C10: a client identifier is offered for preview or batch selection
exactly when it heads a row of the dataset and is non-empty after trimming;
in particular rows whose first column strips to the empty string are
dropped before the client list is built. -/
theorem client_list_nonblank (rows : List (String × List String)) (c : String) :
    c ∈ buildClientList rows ↔ (∃ rest, (c, rest) ∈ rows) ∧ pyStrip c ≠ "" := by
  unfold buildClientList
  simp only [List.mem_map, List.mem_filter]
  constructor
  · rintro ⟨⟨a, rest⟩, ⟨hmem, hne⟩, rfl⟩
    exact ⟨⟨rest, hmem⟩, by simpa using hne⟩
  · rintro ⟨⟨rest, hmem⟩, hne⟩
    exact ⟨(c, rest), ⟨hmem, by simpa using hne⟩, rfl⟩

theorem client_list_nonblank_witness :
    "Acme" ∈ buildClientList [("Acme", ["₹5"]), ("  ", ["1"])] ↔
      (∃ rest, ("Acme", rest) ∈ [("Acme", ["₹5"]), ("  ", ["1"])]) ∧ pyStrip "Acme" ≠ "" :=
  client_list_nonblank [("Acme", ["₹5"]), ("  ", ["1"])] "Acme"

theorem abs_rhe_sub_le (x : Rat) : |((rhe x : Int) : Rat) - x| ≤ 1 / 2 := by
  unfold rhe
  have h1 : ((⌊x⌋ : Int) : Rat) ≤ x := Int.floor_le x
  have h2 : x < (⌊x⌋ : Rat) + 1 := Int.lt_floor_add_one x
  split_ifs with hlt hgt hev <;> rw [abs_le] <;> constructor <;> push_cast <;> linarith

theorem rhe_nonneg {x : Rat} (hx : 0 ≤ x) : 0 ≤ rhe x := by
  unfold rhe
  have h0 : 0 ≤ ⌊x⌋ := Int.floor_nonneg.2 hx
  split_ifs <;> omega

theorem rhe_le_of_le {x : Rat} {B : Int} (hx : x ≤ (B : Rat)) : rhe x ≤ B := by
  have hfl : ⌊x⌋ ≤ B := by
    have := Int.floor_le_floor hx
    simpa using this
  unfold rhe
  split_ifs with hlt hgt hev
  · exact hfl
  · rcases lt_or_eq_of_le hfl with h | h
    · omega
    · exfalso
      subst h
      have : x - (⌊x⌋ : Rat) ≤ 0 := by
        have := Int.floor_le x
        linarith [hx]
      linarith
  · exact hfl
  · rcases lt_or_eq_of_le hfl with h | h
    · omega
    · exfalso
      subst h
      have : x - (⌊x⌋ : Rat) ≤ 0 := by
        have := Int.floor_le x
        linarith [hx]
      linarith

theorem round2_nonneg {x : Rat} (hx : 0 ≤ x) : 0 ≤ round2 x := by
  unfold round2
  have : (0 : Int) ≤ rhe (x * 100) := rhe_nonneg (by positivity)
  positivity

theorem round2_le_100 {x : Rat} (hx : x ≤ 100) : round2 x ≤ 100 := by
  unfold round2
  have hb : rhe (x * 100) ≤ (10000 : Int) := by
    apply rhe_le_of_le
    push_cast
    linarith
  have : ((rhe (x * 100) : Int) : Rat) ≤ 10000 := by exact_mod_cast hb
  linarith

theorem abs_round2_sub (x : Rat) : |round2 x - x| ≤ 1 / 100 := by
  have h := abs_rhe_sub_le (x * 100)
  unfold round2
  have hcalc : ((rhe (x * 100) : Int) : Rat) / 100 - x
      = (((rhe (x * 100) : Int) : Rat) - x * 100) / 100 := by ring
  rw [hcalc, abs_div]
  have h100 : |(100 : Rat)| = 100 := by norm_num
  rw [h100]
  linarith [div_le_div_of_nonneg_right (c := (100 : Rat)) h (by norm_num),
    (by norm_num : (1 / 2 : Rat) / 100 ≤ 1 / 100)]

theorem sum_abs_diff_le {α : Type} (f g : α → Rat) (c : Rat) :
    ∀ l : List α, (∀ a ∈ l, |f a - g a| ≤ c) →
      |(l.map f).sum - (l.map g).sum| ≤ (l.length : Rat) * c := by
  intro l
  induction l with
  | nil => simp
  | cons a t ih =>
    intro hb
    have ha := hb a (List.mem_cons_self a t)
    have ht := ih (fun x hx => hb x (List.mem_cons_of_mem a hx))
    have htri : |(f a + (t.map f).sum) - (g a + (t.map g).sum)|
        ≤ |f a - g a| + |(t.map f).sum - (t.map g).sum| := by
      have : (f a + (t.map f).sum) - (g a + (t.map g).sum)
          = (f a - g a) + ((t.map f).sum - (t.map g).sum) := by ring
      rw [this]
      exact abs_add _ _
    simp only [List.map_cons, List.sum_cons, List.length_cons]
    push_cast
    calc |(f a + (t.map f).sum) - (g a + (t.map g).sum)|
        ≤ |f a - g a| + |(t.map f).sum - (t.map g).sum| := htri
      _ ≤ c + (t.length : Rat) * c := add_le_add ha ht
      _ = ((t.length : Rat) + 1) * c := by ring

theorem sum_div_mul (t : Rat) :
    ∀ l : List (String × Rat),
      (l.map (fun a => a.2 / t * 100)).sum = (l.map Prod.snd).sum / t * 100 := by
  intro l
  induction l with
  | nil => simp
  | cons a r ih =>
    simp only [List.map_cons, List.sum_cons, ih]
    ring

/-- C2: when the value mapping is non-empty and the total is strictly
positive, the percent allocations of the non-Total rows sum to 100 within
an accumulated rounding tolerance of 0.01 per row. -/
theorem percent_sum_tolerance (assets : List (String × Rat))
    (hne : assets ≠ []) (hpos : 0 < (assets.map Prod.snd).sum) :
    |(((allocationTable assets).dropLast).map (fun r => r.pctAllocation)).sum - 100|
      ≤ (assets.length : Rat) / 100 := by
  have htot : (assets.map Prod.snd).sum ≠ 0 := ne_of_gt hpos
  have hdrop : ((allocationTable assets).dropLast).map (fun r => r.pctAllocation)
      = assets.map (fun a => round2 (a.2 / (assets.map Prod.snd).sum * 100)) := by
    unfold allocationTable
    rw [List.dropLast_concat, List.map_map]
    refine List.map_congr_left (fun a _ => ?_)
    simp [hpos]
  rw [hdrop]
  have hexact : (assets.map (fun a => a.2 / (assets.map Prod.snd).sum * 100)).sum = 100 := by
    rw [sum_div_mul]
    field_simp
  have hsum : |(assets.map (fun a => round2 (a.2 / (assets.map Prod.snd).sum * 100))).sum -
      (assets.map (fun a => a.2 / (assets.map Prod.snd).sum * 100)).sum|
      ≤ (assets.length : Rat) * (1 / 100) := by
    apply sum_abs_diff_le
    intro a _
    exact abs_round2_sub _
  rw [hexact] at hsum
  calc |(assets.map (fun a => round2 (a.2 / (assets.map Prod.snd).sum * 100))).sum - 100|
      ≤ (assets.length : Rat) * (1 / 100) := hsum
    _ = (assets.length : Rat) / 100 := by ring

unseal Rat.add Rat.mul Rat.inv Rat.sub in
theorem percent_sum_tolerance_witness :
    |(((allocationTable [("Equity", (50000 : Rat)), ("Debt", 50000)]).dropLast).map
        (fun r => r.pctAllocation)).sum - 100| ≤ (2 : Rat) / 100 := by
  have h := percent_sum_tolerance [("Equity", (50000 : Rat)), ("Debt", 50000)]
    (by simp) (by decide)
  simpa using h

theorem allocationTable_bounds (vals : List (String × Rat))
    (hnn : ∀ p ∈ vals, 0 ≤ p.2) :
    ∀ r ∈ allocationTable vals, 0 ≤ r.value ∧ 0 ≤ r.pctAllocation ∧ r.pctAllocation ≤ 100 := by
  intro r hr
  have hvals : ∀ x ∈ vals.map Prod.snd, (0 : Rat) ≤ x := by
    intro x hx
    rcases List.mem_map.1 hx with ⟨p, hp, rfl⟩
    exact hnn p hp
  have htotnn : 0 ≤ (vals.map Prod.snd).sum := List.sum_nonneg hvals
  unfold allocationTable at hr
  rcases List.mem_append.1 hr with hmem | hmem
  · rcases List.mem_map.1 hmem with ⟨a, ha, rfl⟩
    refine ⟨hnn a ha, ?_, ?_⟩
    · by_cases hpos : 0 < (vals.map Prod.snd).sum
      · simp only [hpos, if_pos]
        apply round2_nonneg
        have hv : 0 ≤ a.2 := hnn a ha
        positivity
      · simp [hpos]
    · by_cases hpos : 0 < (vals.map Prod.snd).sum
      · simp only [hpos, if_pos]
        apply round2_le_100
        have hle : a.2 ≤ (vals.map Prod.snd).sum :=
          List.single_le_sum hvals _ (List.mem_map.2 ⟨a, ha, rfl⟩)
        have hdiv : a.2 / (vals.map Prod.snd).sum ≤ 1 := (div_le_one hpos).2 hle
        calc a.2 / (vals.map Prod.snd).sum * 100 ≤ 1 * 100 :=
          mul_le_mul_of_nonneg_right hdiv (by norm_num)
          _ = 100 := by norm_num
      · simp [hpos]
  · simp only [List.mem_singleton] at hmem
    subst hmem
    exact ⟨htotnn, by norm_num, by norm_num⟩

/-- C3, amended: when every cell of a client record normalizes to a finite,
non-negative value, every Allocation Row derived by the pipeline has a
non-negative value and a percent allocation in `[0, 100]`.  (As stated the
claim is false: negative cells pass through the normalizer unchanged, see
the counterexample.) -/
theorem allocation_row_bounds (cells : List (String × String))
    (vals : List (String × Rat)) (rows : List AllocRow)
    (hv : clientValues? cells = some vals)
    (hnn : ∀ p ∈ vals, 0 ≤ p.2)
    (hrows : pipelineRows? cells = some rows) :
    ∀ r ∈ rows, 0 ≤ r.value ∧ 0 ≤ r.pctAllocation ∧ r.pctAllocation ≤ 100 := by
  have : rows = allocationTable vals := by
    unfold pipelineRows? at hrows
    rw [hv] at hrows
    simpa using hrows.symm
  subst this
  exact allocationTable_bounds vals hnn

unseal Rat.add Rat.mul Rat.inv Rat.sub in
theorem allocation_row_bounds_witness :
    0 ≤ ({ assetType := "Equity", value := 50000, pctAllocation := 50 } : AllocRow).value ∧
    0 ≤ ({ assetType := "Equity", value := 50000,
           pctAllocation := 50 } : AllocRow).pctAllocation ∧
    ({ assetType := "Equity", value := 50000,
       pctAllocation := 50 } : AllocRow).pctAllocation ≤ 100 :=
  allocation_row_bounds [("Equity", "₹50,000"), ("Debt", "50000")]
    [("Equity", 50000), ("Debt", 50000)]
    (allocationTable [("Equity", (50000 : Rat)), ("Debt", 50000)])
    (by decide) (by decide) (by decide)
    { assetType := "Equity", value := 50000, pctAllocation := 50 } (by decide)

unseal Rat.add Rat.mul Rat.inv Rat.sub in
/-- C3 fails as stated: the cell strings `"-50"` and `"150"` pass through
the normalizer and the Allocation Calculator and produce a row with a
negative value and percent allocations outside `[0, 100]`. -/
theorem allocation_row_bounds_counterexample :
    pipelineRows? [("A", "-50"), ("B", "150")] =
      some [{ assetType := "A", value := -50, pctAllocation := -50 },
            { assetType := "B", value := 150, pctAllocation := 150 },
            { assetType := "Total", value := 100, pctAllocation := 100 }] ∧
    ¬ (∀ r ∈ [({ assetType := "A", value := -50, pctAllocation := -50 } : AllocRow),
              { assetType := "B", value := 150, pctAllocation := 150 },
              { assetType := "Total", value := 100, pctAllocation := 100 }],
        0 ≤ r.value ∧ 0 ≤ r.pctAllocation ∧ r.pctAllocation ≤ 100) := by
  decide

/-! Lemmas about the grouping loop, the chunk description, the joins and the
digit strings, leading to the currency-formatter theorems. -/

theorem groupsLoopAux_acc : ∀ (fuel : Nat) (l : List Char) (acc : List (List Char)),
    groupsLoopAux fuel l acc
      = (acc ++ (groupsLoopAux fuel l []).1, (groupsLoopAux fuel l []).2) := by
  intro fuel
  induction fuel with
  | zero => intro l acc; simp [groupsLoopAux]
  | succ f ih =>
    intro l acc
    simp only [groupsLoopAux]
    by_cases h : 2 < l.length
    · simp only [if_pos h]
      rw [ih (l.take (l.length - 2)) (acc ++ [l.drop (l.length - 2)]),
        ih (l.take (l.length - 2)) ([] ++ [l.drop (l.length - 2)])]
      simp
    · simp only [if_neg h]
      simp

theorem groupsLoopAux_snd_ne_nil : ∀ (fuel : Nat) (l : List Char),
    l.length ≤ fuel → l ≠ [] → (groupsLoopAux fuel l []).2 ≠ [] := by
  intro fuel
  induction fuel with
  | zero =>
    intro l hl hne
    exact absurd (List.eq_nil_of_length_eq_zero (by omega)) hne
  | succ f ih =>
    intro l hl hne
    simp only [groupsLoopAux]
    by_cases h : 2 < l.length
    · rw [if_pos h, groupsLoopAux_acc f (l.take (l.length - 2)) ([] ++ [l.drop (l.length - 2)])]
      have hlen : (l.take (l.length - 2)).length ≤ f := by
        simp only [List.length_take]
        omega
      have hne' : l.take (l.length - 2) ≠ [] := by
        intro hc
        have : (l.take (l.length - 2)).length = 0 := by rw [hc]; rfl
        simp only [List.length_take] at this
        omega
      exact ih (l.take (l.length - 2)) hlen hne'
    · rw [if_neg h]
      exact hne

theorem groupsLoopAux_flatten : ∀ (fuel : Nat) (l : List Char), l.length ≤ fuel →
    (groupsLoopAux fuel l []).2 ++ ((groupsLoopAux fuel l []).1.reverse).flatten = l := by
  intro fuel
  induction fuel with
  | zero =>
    intro l hl
    have : l = [] := List.eq_nil_of_length_eq_zero (by omega)
    subst this
    simp [groupsLoopAux]
  | succ f ih =>
    intro l hl
    simp only [groupsLoopAux]
    by_cases h : 2 < l.length
    · rw [if_pos h, groupsLoopAux_acc f (l.take (l.length - 2)) ([] ++ [l.drop (l.length - 2)])]
      have hlen : (l.take (l.length - 2)).length ≤ f := by
        simp only [List.length_take]
        omega
      have hrec := ih (l.take (l.length - 2)) hlen
      simp only [List.nil_append, List.reverse_append, List.reverse_cons, List.reverse_nil,
        List.flatten_append, List.flatten_cons, List.flatten_nil, List.append_nil]
      rw [← List.append_assoc, hrec, List.take_append_drop]
    · rw [if_neg h]
      simp

theorem groupsLoopAux_chunks : ∀ (fuel : Nat) (l : List Char), l.length ≤ fuel → l ≠ [] →
    ((groupsLoopAux fuel l []).1 ++ [(groupsLoopAux fuel l []).2]).reverse
      = chunk2Aux fuel l := by
  intro fuel
  induction fuel with
  | zero =>
    intro l hl hne
    exact absurd (List.eq_nil_of_length_eq_zero (by omega)) hne
  | succ f ih =>
    intro l hl hne
    simp only [groupsLoopAux, chunk2Aux]
    by_cases h : 2 < l.length
    · rw [if_pos h, if_neg hne, if_neg (by omega : ¬ l.length ≤ 2),
        groupsLoopAux_acc f (l.take (l.length - 2)) ([] ++ [l.drop (l.length - 2)])]
      have hlen : (l.take (l.length - 2)).length ≤ f := by
        simp only [List.length_take]
        omega
      have hne' : l.take (l.length - 2) ≠ [] := by
        intro hc
        have : (l.take (l.length - 2)).length = 0 := by rw [hc]; rfl
        simp only [List.length_take] at this
        omega
      have hrec := ih (l.take (l.length - 2)) hlen hne'
      simp only [List.nil_append, List.reverse_append, List.reverse_cons, List.reverse_nil,
        List.nil_append, List.append_nil] at hrec ⊢
      rw [← hrec]
      simp [List.reverse_append]
    · rw [if_neg h, if_neg hne, if_pos (by omega : l.length ≤ 2)]
      simp

theorem chunk2Aux_ne_nil : ∀ (fuel : Nat) (l : List Char), 0 < fuel → l ≠ [] →
    chunk2Aux fuel l ≠ [] := by
  intro fuel l hf hne
  match fuel, hf with
  | f + 1, _ =>
    simp only [chunk2Aux]
    rw [if_neg hne]
    by_cases h2 : l.length ≤ 2
    · rw [if_pos h2]; simp
    · rw [if_neg h2]; simp

theorem chunk2Aux_mem : ∀ (fuel : Nat) (l : List Char) (x : List Char) (c : Char),
    x ∈ chunk2Aux fuel l → c ∈ x → c ∈ l := by
  intro fuel
  induction fuel with
  | zero => intro l x c hx; simp [chunk2Aux] at hx
  | succ f ih =>
    intro l x c hx hc
    simp only [chunk2Aux] at hx
    by_cases hne : l = []
    · rw [if_pos hne] at hx; simp at hx
    · rw [if_neg hne] at hx
      by_cases h2 : l.length ≤ 2
      · rw [if_pos h2] at hx
        simp only [List.mem_singleton] at hx
        subst hx
        exact hc
      · rw [if_neg h2] at hx
        rcases List.mem_append.1 hx with hmem | hmem
        · exact List.take_subset _ _ (ih (l.take (l.length - 2)) x c hmem hc)
        · simp only [List.mem_singleton] at hmem
          subst hmem
          exact List.drop_subset _ _ hc

theorem commaJoin_append_singleton : ∀ (xs : List String) (y : String), xs ≠ [] →
    commaJoin (xs ++ [y]) = commaJoin xs ++ "," ++ y := by
  intro xs
  induction xs with
  | nil => intro y h; exact absurd rfl h
  | cons a t ih =>
    intro y _
    cases t with
    | nil => simp [commaJoin]
    | cons b t2 =>
      have hih := ih y (by simp)
      simp only [List.cons_append] at hih ⊢
      simp only [commaJoin]
      rw [hih]
      simp [String.append_assoc]

theorem commaJoin_filter : ∀ xs : List String,
    (∀ x ∈ xs, ∀ c ∈ x.data, c ≠ ',') →
    (commaJoin xs).data.filter (fun c => c != ',') = (xs.map String.data).flatten := by
  intro xs
  induction xs with
  | nil => intro _; rfl
  | cons a t ih =>
    intro hx
    cases t with
    | nil =>
      simp only [commaJoin, List.map_cons, List.map_nil, List.flatten_cons, List.flatten_nil,
        List.append_nil]
      refine List.filter_eq_self.2 (fun c hc => ?_)
      have := hx a (by simp) c hc
      simpa using this
    | cons b t2 =>
      simp only [commaJoin, String.data_append, List.filter_append, List.map_cons,
        List.flatten_cons]
      have h1 : (a.data.filter (fun c => c != ',')) = a.data :=
        List.filter_eq_self.2 (fun c hc => by simpa using hx a (by simp) c hc)
      have h2 : (("," : String).data.filter (fun c => c != ',')) = [] := rfl
      have h3 := ih (fun x hmem c hc => hx x (List.mem_cons_of_mem a hmem) c hc)
      simp only [commaJoin] at h3
      rw [h1, h2, h3]
      simp

theorem digitChar_isDigit {d : Nat} (h : d < 10) : (digitChar d).isDigit = true := by
  interval_cases d <;> decide

theorem digitChar_toNat {d : Nat} (h : d < 10) : (digitChar d).toNat = 48 + d := by
  interval_cases d <;> decide

theorem decDigitsAux_isDigit : ∀ (fuel n : Nat), ∀ c ∈ decDigitsAux fuel n,
    c.isDigit = true := by
  intro fuel
  induction fuel with
  | zero => intro n c hc; simp [decDigitsAux] at hc
  | succ f ih =>
    intro n c hc
    simp only [decDigitsAux] at hc
    by_cases h : n < 10
    · rw [if_pos h] at hc
      simp only [List.mem_singleton] at hc
      subst hc
      exact digitChar_isDigit h
    · rw [if_neg h] at hc
      rcases List.mem_append.1 hc with hmem | hmem
      · exact ih (n / 10) c hmem
      · simp only [List.mem_singleton] at hmem
        subst hmem
        exact digitChar_isDigit (Nat.mod_lt _ (by omega))

theorem decDigitsAux_ne_nil (fuel n : Nat) (hf : 0 < fuel) : decDigitsAux fuel n ≠ [] := by
  match fuel, hf with
  | f + 1, _ =>
    simp only [decDigitsAux]
    by_cases h : n < 10
    · rw [if_pos h]; simp
    · rw [if_neg h]; simp

theorem ne_comma_of_isDigit {c : Char} (h : c.isDigit = true) : (c != ',') = true := by
  rcases eq_or_ne c ',' with rfl | hne
  · exact absurd h (by decide)
  · simpa using hne

theorem decDigitsAux_val : ∀ (fuel n : Nat), n < fuel → ∀ A : Nat,
    (decDigitsAux fuel n).foldl (fun a c => 10 * a + (c.toNat - 48)) A
      = A * 10 ^ (decDigitsAux fuel n).length + n := by
  intro fuel
  induction fuel with
  | zero => intro n hn; omega
  | succ f ih =>
    intro n hn A
    simp only [decDigitsAux]
    by_cases h : n < 10
    · rw [if_pos h]
      simp only [List.foldl_cons, List.foldl_nil, List.length_cons, List.length_nil]
      rw [digitChar_toNat h]
      ring_nf
      omega
    · rw [if_neg h]
      have hdiv : n / 10 < f := by
        have h1 : n / 10 < n := Nat.div_lt_self (by omega) (by omega)
        omega
      rw [List.foldl_append]
      rw [ih (n / 10) hdiv A]
      simp only [List.foldl_cons, List.foldl_nil, List.length_append, List.length_cons,
        List.length_nil]
      rw [digitChar_toNat (Nat.mod_lt _ (by omega))]
      have hmod : 10 * (n / 10) + n % 10 = n := by omega
      have hpow : 10 ^ ((decDigitsAux f (n / 10)).length + (0 + 1))
          = 10 ^ (decDigitsAux f (n / 10)).length * 10 := by
        rw [Nat.add_comm 0 1, pow_succ]
      rw [hpow]
      ring_nf
      omega

theorem decDigits_val (n : Nat) :
    (decDigits n).foldl (fun a c => 10 * a + (c.toNat - 48)) 0 = n := by
  have := decDigitsAux_val (n + 1) n (by omega) 0
  simpa [decDigits] using this

theorem rhe_intCast (m : Int) : rhe ((m : Int) : Rat) = m := by
  unfold rhe
  rw [Int.floor_intCast, sub_self]
  norm_num

theorem rhe_natCast (n : Nat) : rhe ((n : Nat) : Rat) = (n : Int) := by
  have := rhe_intCast (n : Int)
  rw [← this]
  norm_num

theorem pyIntStr_natCast (n : Nat) : pyIntStr ((n : Nat) : Int) = String.mk (decDigits n) := by
  unfold pyIntStr
  rw [if_neg (by omega : ¬ ((n : Int) < 0))]
  simp

theorem format_pos_eq (q : Rat) (m : Nat) (h0 : q ≠ 0) (hm : rhe q = (m : Int)) :
    format_indian_currency q = "₹ " ++ indianGroupingSpec (String.mk (decDigits m)) := by
  have hD : decDigits m ≠ [] := decDigitsAux_ne_nil _ _ (by omega)
  unfold format_indian_currency indianGroupingSpec
  rw [if_neg h0, hm, pyIntStr_natCast]
  dsimp only [String.length]
  by_cases hl : (decDigits m).length ≤ 3
  · rw [if_pos hl]
    have hlen0 : (decDigits m).length - 3 = 0 := by omega
    rw [hlen0]
    simp [chunk2FromRight, chunk2Aux, commaJoin]
  · rw [if_neg hl]
    set R := List.take ((decDigits m).length - 3) (decDigits m) with hRdef
    have hRlen : R.length = (decDigits m).length - 3 := by
      rw [hRdef]
      simp only [List.length_take]
      omega
    have hRne : R ≠ [] := by
      intro hc
      rw [hc] at hRlen
      simp at hRlen
      omega
    have hsnd : (groupsLoop R []).2 ≠ [] :=
      groupsLoopAux_snd_ne_nil R.length R le_rfl hRne
    rw [if_pos hsnd]
    have hchunks : ((groupsLoop R []).1 ++ [(groupsLoop R []).2]).reverse
        = chunk2FromRight R :=
      groupsLoopAux_chunks R.length R le_rfl hRne
    rw [hchunks]
    have hc2 : chunk2FromRight R ≠ [] :=
      chunk2Aux_ne_nil R.length R (by omega) hRne
    have hxs : (chunk2FromRight R).map String.mk ≠ [] := by
      simpa using hc2
    rw [List.map_append]
    simp only [List.map_cons, List.map_nil]
    rw [commaJoin_append_singleton _ _ hxs]
    simp [String.append_assoc]

theorem format_eq_spec (q : Rat) (hq : 0 ≤ q) :
    format_indian_currency q = formatCurrencySpec q := by
  by_cases h0 : q = 0
  · subst h0
    have h1 : rhe 0 = 0 := by unfold rhe; norm_num
    simp [format_indian_currency, formatCurrencySpec, h1]
  · have hn : 0 ≤ rhe q := rhe_nonneg hq
    obtain ⟨m, hm⟩ : ∃ m : Nat, rhe q = (m : Int) :=
      ⟨(rhe q).toNat, (Int.toNat_of_nonneg hn).symm⟩
    rw [format_pos_eq q m h0 hm]
    unfold formatCurrencySpec
    rw [hm, pyIntStr_natCast]
    by_cases hz : (m : Int) = 0
    · rw [if_pos hz]
      have hm0 : m = 0 := by exact_mod_cast hz
      subst hm0
      decide
    · rw [if_neg hz]

theorem chunk2_flatten (l : List Char) : (chunk2FromRight l).flatten = l := by
  by_cases hne : l = []
  · subst hne; rfl
  · have h1 := groupsLoopAux_chunks l.length l le_rfl hne
    have h2 := groupsLoopAux_flatten l.length l le_rfl
    rw [chunk2FromRight, ← h1]
    simp only [List.reverse_append, List.reverse_cons, List.reverse_nil, List.nil_append,
      List.flatten_append, List.flatten_cons, List.flatten_nil, List.append_nil]
    simpa using h2

theorem indianGroupingSpec_filter (D : List Char) (hdig : ∀ c ∈ D, c.isDigit = true) :
    (indianGroupingSpec (String.mk D)).data.filter (fun c => c != ',') = D := by
  unfold indianGroupingSpec
  have hparts : ∀ x ∈ (chunk2FromRight (D.take (D.length - 3))
      ++ [D.drop (D.length - 3)]).map String.mk, ∀ c ∈ x.data, c ≠ ',' := by
    intro x hx c hc
    rcases List.mem_map.1 hx with ⟨t, ht, rfl⟩
    have hcT : c ∈ t := hc
    have hcD : c ∈ D := by
      rcases List.mem_append.1 ht with h1 | h1
      · exact List.take_subset _ _ (chunk2Aux_mem _ _ t c h1 hcT)
      · simp only [List.mem_singleton] at h1
        subst h1
        exact List.drop_subset _ _ hcT
    have hd := hdig c hcD
    intro he
    subst he
    exact absurd hd (by decide)
  rw [commaJoin_filter _ hparts, List.map_map]
  have hid : (String.data ∘ String.mk) = (id : List Char → List Char) := rfl
  rw [hid, List.map_id, List.flatten_append]
  rw [chunk2_flatten]
  simp [List.take_append_drop]

unseal Rat.add Rat.mul Rat.inv Rat.sub in
/-- C5: for non-negative amounts the Currency Formatter agrees with the
claimed description — round to the nearest integer, print `"₹ 0"` when the
amount rounds to zero, and otherwise group the digit string Indian-style
(last three digits one group, the leading digits in chunks of two from the
right, comma-joined after the symbol) — and in particular maps `0`, `999`,
`100000` and `1234567` to the four quoted strings. -/
theorem currency_formatter_claim (q : Rat) (hq : 0 ≤ q) :
    format_indian_currency q = formatCurrencySpec q ∧
    format_indian_currency 0 = "₹ 0" ∧
    format_indian_currency 999 = "₹ 999" ∧
    format_indian_currency 100000 = "₹ 1,00,000" ∧
    format_indian_currency 1234567 = "₹ 12,34,567" :=
  ⟨format_eq_spec q hq, by decide, by decide, by decide, by decide⟩

unseal Rat.add Rat.mul Rat.inv Rat.sub in
theorem currency_formatter_claim_witness :
    format_indian_currency 100000 = formatCurrencySpec 100000 ∧
    format_indian_currency 999 = "₹ 999" :=
  ⟨(currency_formatter_claim 100000 (by decide)).1,
   (currency_formatter_claim 999 (by decide)).2.2.1⟩

/-- C9: for every positive integer amount, dropping the leading `"₹ "` and
removing the commas from the formatted output yields exactly the decimal
digit string of the amount (whose digit characters fold back to the
number), so the formatter only inserts separators and never deletes,
reorders or alters digits. -/
theorem currency_digit_preservation (n : Nat) (hn : 0 < n) :
    (format_indian_currency ((n : Nat) : Rat)).data.take 2 = ['₹', ' '] ∧
    ((format_indian_currency ((n : Nat) : Rat)).data.drop 2).filter (fun c => c != ',')
      = decDigits n ∧
    (decDigits n).foldl (fun a c => 10 * a + (c.toNat - 48)) 0 = n := by
  have hq0 : ((n : Nat) : Rat) ≠ 0 := by
    have : (0 : Rat) < (n : Rat) := by exact_mod_cast hn
    exact ne_of_gt this
  rw [format_pos_eq ((n : Nat) : Rat) n hq0 (rhe_natCast n)]
  have hdig : ∀ c ∈ decDigits n, c.isDigit = true :=
    fun c hc => decDigitsAux_isDigit _ _ c hc
  refine ⟨?_, ?_, decDigits_val n⟩
  · rw [String.data_append]
    rfl
  · rw [String.data_append]
    have hpre : ("₹ " : String).data = ['₹', ' '] := rfl
    rw [hpre]
    have hdrop : (['₹', ' '] ++ (indianGroupingSpec (String.mk (decDigits n))).data).drop 2
        = (indianGroupingSpec (String.mk (decDigits n))).data := rfl
    rw [hdrop]
    exact indianGroupingSpec_filter (decDigits n) hdig

theorem currency_digit_preservation_witness :
    (format_indian_currency ((1234567 : Nat) : Rat)).data.take 2 = ['₹', ' '] ∧
    ((format_indian_currency ((1234567 : Nat) : Rat)).data.drop 2).filter
        (fun c => c != ',') = decDigits 1234567 ∧
    (decDigits 1234567).foldl (fun a c => 10 * a + (c.toNat - 48)) 0 = 1234567 :=
  currency_digit_preservation 1234567 (by decide)
